import Mathlib

/-!
Shallow embedding of the attic client-side cache (src/attic/cache.py) and the
archive materializer (src/attic/fuse.py), with theorems settling the frozen
claims about them.

Conventions:
* `ChunkId` and `PathHash` (32-byte digests in the source) are modelled as `Nat`
  with decidable equality, which is all the code uses of them.
* The `ChunkIndex` C extension (attic.hashindex) is not under src/; per the
  spec it is a mapping ChunkId -> (refcount, size, csize).  It is modelled as
  an association list with `lookupA` / `setA` / `delA`.
* Byte strings are `List Nat`.
-/

/-- Modelled from the spec: `ChunkIndex` lookup (`self.chunks[id]` /
`self.chunks.get(id)`), a mapping from id to entry.  Returns the value of the
first pair with the given key. -/
def lookupA {α : Type} : List (Nat × α) → Nat → Option α
  | [], _ => none
  | (k, v) :: r, id => if k = id then some v else lookupA r id

/-- Modelled from the spec: `ChunkIndex` store (`self.chunks[id] = entry`):
replace the entry if the key is present, else append it. -/
def setA {α : Type} : List (Nat × α) → Nat → α → List (Nat × α)
  | [], id, v => [(id, v)]
  | (k, w) :: r, id, v => if k = id then (k, v) :: r else (k, w) :: setA r id v

/-- Modelled from the spec: `ChunkIndex` removal (`del self.chunks[id]`). -/
def delA {α : Type} : List (Nat × α) → Nat → List (Nat × α)
  | [], _ => []
  | (k, w) :: r, id => if k = id then delA r id else (k, w) :: delA r id

theorem lookupA_setA {α : Type} (m : List (Nat × α)) (id j : Nat) (v : α) :
    lookupA (setA m id v) j = if j = id then some v else lookupA m j := by
  induction m with
  | nil =>
    by_cases h : j = id
    · subst h; simp [setA, lookupA]
    · simp [setA, lookupA, h, Ne.symm h]
  | cons p r ih =>
    obtain ⟨k, w⟩ := p
    by_cases hk : k = id
    · subst hk
      by_cases hj : k = j
      · subst hj; simp [setA, lookupA]
      · simp [setA, lookupA, hj, Ne.symm hj]
    · by_cases hj : k = j
      · subst hj
        simp [setA, lookupA, hk, Ne.symm hk]
      · simp [setA, lookupA, hk, hj, ih]

theorem lookupA_delA {α : Type} (m : List (Nat × α)) (id j : Nat) :
    lookupA (delA m id) j = if j = id then none else lookupA m j := by
  induction m with
  | nil => by_cases h : j = id <;> simp [delA, lookupA, h]
  | cons p r ih =>
    obtain ⟨k, w⟩ := p
    by_cases hk : k = id
    · subst hk
      by_cases hj : k = j
      · subst hj; simp [delA, lookupA, ih]
      · simp [delA, lookupA, hj, Ne.symm hj, ih]
    · by_cases hj : k = j
      · subst hj
        simp [delA, lookupA, hk, Ne.symm hk]
      · simp [delA, lookupA, hk, hj, ih]

/-- A chunk index entry `(refcount, plaintext size, ciphertext size)`
(cache.py stores these triples in `self.chunks`). -/
abbrev ChunkEntry := Nat × Nat × Nat

/-- One repository call issued by the cache (`self.repository.put` /
`self.repository.delete` in cache.py, both with `wait=False`). -/
inductive RepoOp : Type where
  | put (id : Nat) (ciphertext : List Nat) : RepoOp
  | delete (id : Nat) : RepoOp
  deriving DecidableEq, Repr

/-- `helpers.Statistics`: accumulators updated by `update(size, csize, unique)`. -/
structure ChStats : Type where
  osize : Int
  csize : Int
  usize : Int
  deriving DecidableEq, Repr

/-- `Statistics.update(self, size, csize, unique)` (helpers.py):
`osize += size; csize += csize; if unique: usize += csize`. -/
def ChStats.update (st : ChStats) (size csize : Int) (unique : Bool) : ChStats :=
  { osize := st.osize + size
    csize := st.csize + csize
    usize := if unique then st.usize + csize else st.usize }

/-- The in-memory state of `Cache` relevant to the chunk-reference operations:
the chunk index `self.chunks`, the `self.txn_active` flag, and the log of
repository calls issued so far. -/
structure CState : Type where
  chunks : List (Nat × ChunkEntry)
  txn_active : Bool
  log : List RepoOp
  deriving DecidableEq, Repr

namespace Cache

/-- The in-memory effect of `Cache.begin_txn` (cache.py lines 90-99): sets
`self.txn_active = True`.  Its on-disk snapshot protocol is modelled
separately in the `Txn` namespace. -/
def begin_txn_mem (c : CState) : CState :=
  if c.txn_active then c else { c with txn_active := true }

/-- `Cache.seen_chunk` (cache.py line 187-188):
`self.chunks.get(id, (0, 0, 0))[0]`. -/
def seen_chunk (c : CState) (id : Nat) : Nat :=
  ((lookupA c.chunks id).getD (0, 0, 0)).1

/-- `Cache.chunk_incref` (cache.py lines 190-196).  `self.chunks[id]` raises
`KeyError` on an absent id, modelled as `none`. -/
def chunk_incref (c : CState) (id : Nat) (st : ChStats) :
    Option (CState × ChStats × (Nat × Nat × Nat)) :=
  let c := begin_txn_mem c
  match lookupA c.chunks id with
  | none => none
  | some (count, s, cs) =>
    some ({ c with chunks := setA c.chunks id (count + 1, s, cs) },
          st.update s cs false, (id, s, cs))

/-- `Cache.add_chunk` (cache.py lines 174-185).  When `seen_chunk id` is
non-zero it returns `chunk_incref(id, stats)` (which cannot raise then, so the
`getD` default is dead code); otherwise it encrypts, issues `repository.put`,
and records `(1, len(data), len(ciphertext))`.  `encrypt` stands for
`self.key.encrypt`. -/
def add_chunk (encrypt : List Nat → List Nat) (c : CState) (id : Nat)
    (data : List Nat) (st : ChStats) : CState × ChStats × (Nat × Nat × Nat) :=
  let c := begin_txn_mem c
  if seen_chunk c id ≠ 0 then
    (chunk_incref c id st).getD (c, st, (id, 0, 0))
  else
    let size := data.length
    let ct := encrypt data
    let csize := ct.length
    ({ c with
        chunks := setA c.chunks id (1, size, csize)
        log := c.log ++ [RepoOp.put id ct] },
     st.update size csize true, (id, size, csize))

/-- `Cache.chunk_decref` (cache.py lines 198-208): on refcount 1 the entry is
erased and `repository.delete(id, wait=False)` issued; otherwise the refcount
is decremented. -/
def chunk_decref (c : CState) (id : Nat) (st : ChStats) :
    Option (CState × ChStats) :=
  let c := begin_txn_mem c
  match lookupA c.chunks id with
  | none => none
  | some (count, s, cs) =>
    if count = 1 then
      some ({ c with
                chunks := delA c.chunks id
                log := c.log ++ [RepoOp.delete id] },
            st.update (-(s : Int)) (-(cs : Int)) true)
    else
      some ({ c with chunks := setA c.chunks id (count - 1, s, cs) },
            st.update (-(s : Int)) (-(cs : Int)) false)

end Cache

theorem begin_txn_mem_chunks (c : CState) : (Cache.begin_txn_mem c).chunks = c.chunks := by
  unfold Cache.begin_txn_mem; split <;> rfl

theorem begin_txn_mem_log (c : CState) : (Cache.begin_txn_mem c).log = c.log := by
  unfold Cache.begin_txn_mem; split <;> rfl

attribute [simp] begin_txn_mem_chunks begin_txn_mem_log

/-- The local function `add` defined inside `Cache.sync` (cache.py lines
144-149): `try: count, size, csize = self.chunks[id]; self.chunks[id] =
count + 1, size, csize; except KeyError: self.chunks[id] = 1, size, csize`.
Note the tuple unpacking shadows the `size`/`csize` arguments, so on a
present id the stored sizes are kept. -/
def syncAdd (m : List (Nat × ChunkEntry)) (id size csize : Nat) :
    List (Nat × ChunkEntry) :=
  match lookupA m id with
  | some (count, s, cs) => setA m id (count + 1, s, cs)
  | none => setA m id (1, size, csize)

/-- C2: starting from a cache where id `A` is absent, `add_chunk(A, data, st)`
encrypts, issues `repository.put`, and records `(1, len(data),
len(ciphertext))`; a second `add_chunk` of the same id only bumps the entry to
refcount 2 with no repository traffic; two subsequent `chunk_decref(A)` calls
first decrement to refcount 1 and then remove the entry, with
`repository.delete(A)` issued exactly once, on the second decref. -/
theorem add_chunk_twice_decref_twice
    (encrypt : List Nat → List Nat) (c0 : CState) (st0 st1 st2 st3 st4 : ChStats)
    (A : Nat) (data : List Nat)
    (c1 c2 c3 c4 : CState) (r1 r2 : Nat × Nat × Nat)
    (h0 : lookupA c0.chunks A = none)
    (h1 : Cache.add_chunk encrypt c0 A data st0 = (c1, st1, r1))
    (h2 : Cache.add_chunk encrypt c1 A data st1 = (c2, st2, r2))
    (h3 : Cache.chunk_decref c2 A st2 = some (c3, st3))
    (h4 : Cache.chunk_decref c3 A st3 = some (c4, st4)) :
    lookupA c1.chunks A = some (1, data.length, (encrypt data).length) ∧
    c1.log = c0.log ++ [RepoOp.put A (encrypt data)] ∧
    r1 = (A, data.length, (encrypt data).length) ∧
    lookupA c2.chunks A = some (2, data.length, (encrypt data).length) ∧
    c2.log = c1.log ∧
    r2 = (A, data.length, (encrypt data).length) ∧
    lookupA c3.chunks A = some (1, data.length, (encrypt data).length) ∧
    c3.log = c2.log ∧
    lookupA c4.chunks A = none ∧
    c4.log = c3.log ++ [RepoOp.delete A] := by
  simp [Cache.add_chunk, Cache.seen_chunk, Cache.chunk_incref, h0,
    Prod.mk.injEq] at h1
  obtain ⟨hc1, -, hr1⟩ := h1
  subst hc1
  simp [Cache.add_chunk, Cache.seen_chunk, Cache.chunk_incref, lookupA_setA,
    Prod.mk.injEq] at h2
  obtain ⟨hc2, -, hr2⟩ := h2
  subst hc2
  simp [Cache.chunk_decref, lookupA_setA, Prod.mk.injEq] at h3
  obtain ⟨hc3, -⟩ := h3
  subst hc3
  simp [Cache.chunk_decref, lookupA_setA, Prod.mk.injEq] at h4
  obtain ⟨hc4, -⟩ := h4
  subst hc4
  refine ⟨by simp [lookupA_setA], by simp, ?_,
    by simp [lookupA_setA], by simp, ?_,
    by simp [lookupA_setA], by simp,
    by simp [lookupA_delA], by simp⟩
  · exact hr1.symm
  · exact hr2.symm

/-- Witness for `add_chunk_twice_decref_twice` at a concrete run. -/
theorem add_chunk_twice_decref_twice_witness :
    lookupA
      (Cache.add_chunk (fun d => d) ⟨[], false, []⟩ 5 [1, 2, 3] ⟨0, 0, 0⟩).1.chunks
      5 = some (1, 3, 3) := by
  have h := add_chunk_twice_decref_twice (fun d => d) ⟨[], false, []⟩
    ⟨0, 0, 0⟩ _ _ _ _ 5 [1, 2, 3] _ _ _ _ _ _ rfl rfl rfl rfl rfl
  exact h.1

/-- The refcount invariant: every entry present in a chunk index has
refcount at least 1. -/
def goodIdx (m : List (Nat × ChunkEntry)) : Prop :=
  ∀ id cnt s cs, lookupA m id = some (cnt, s, cs) → 1 ≤ cnt

theorem goodIdx_nil : goodIdx [] := by
  intro id cnt s cs h; simp [lookupA] at h

theorem goodIdx_setA (m : List (Nat × ChunkEntry)) (id : Nat) (v : ChunkEntry)
    (hm : goodIdx m) (hv : 1 ≤ v.1) : goodIdx (setA m id v) := by
  intro j cnt s cs h
  rw [lookupA_setA] at h
  by_cases hj : j = id
  · rw [if_pos hj, Option.some.injEq] at h
    subst h
    simpa using hv
  · rw [if_neg hj] at h
    exact hm j cnt s cs h

theorem goodIdx_delA (m : List (Nat × ChunkEntry)) (id : Nat)
    (hm : goodIdx m) : goodIdx (delA m id) := by
  intro j cnt s cs h
  rw [lookupA_delA] at h
  by_cases hj : j = id
  · rw [if_pos hj] at h; simp at h
  · rw [if_neg hj] at h
    exact hm j cnt s cs h

theorem goodIdx_add_chunk (e : List Nat → List Nat) (c : CState) (id : Nat)
    (data : List Nat) (st : ChStats) (h : goodIdx c.chunks) :
    goodIdx (Cache.add_chunk e c id data st).1.chunks := by
  rcases hl : lookupA c.chunks id with _ | ⟨cnt, s, cs⟩
  · simp [Cache.add_chunk, Cache.seen_chunk, Cache.chunk_incref, hl]
    exact goodIdx_setA _ _ _ h (le_refl 1)
  · by_cases hc : cnt = 0
    · subst hc
      simp [Cache.add_chunk, Cache.seen_chunk, Cache.chunk_incref, hl]
      exact goodIdx_setA _ _ _ h (le_refl 1)
    · simp [Cache.add_chunk, Cache.seen_chunk, Cache.chunk_incref, hl, hc]
      exact goodIdx_setA _ _ _ h (Nat.le_add_left 1 cnt)

theorem goodIdx_incref (c : CState) (id : Nat) (st : ChStats) (c' : CState)
    (st' : ChStats) (r : Nat × Nat × Nat)
    (h : Cache.chunk_incref c id st = some (c', st', r))
    (hg : goodIdx c.chunks) : goodIdx c'.chunks := by
  rcases hl : lookupA c.chunks id with _ | ⟨cnt, s, cs⟩ <;>
    simp [Cache.chunk_incref, hl, Prod.mk.injEq] at h
  obtain ⟨hc, -⟩ := h
  subst hc
  simpa using goodIdx_setA _ _ _ hg (Nat.le_add_left 1 cnt)

theorem goodIdx_decref (c : CState) (id : Nat) (st : ChStats) (c' : CState)
    (st' : ChStats)
    (h : Cache.chunk_decref c id st = some (c', st'))
    (hg : goodIdx c.chunks) : goodIdx c'.chunks := by
  rcases hl : lookupA c.chunks id with _ | ⟨cnt, s, cs⟩
  · simp [Cache.chunk_decref, hl] at h
  · by_cases hc : cnt = 1
    · simp [Cache.chunk_decref, hl, hc, Prod.mk.injEq] at h
      obtain ⟨hc2, -⟩ := h
      subst hc2
      simpa using goodIdx_delA _ _ hg
    · simp [Cache.chunk_decref, hl, hc, Prod.mk.injEq] at h
      obtain ⟨hc2, -⟩ := h
      subst hc2
      have h1 : 1 ≤ cnt := hg id cnt s cs hl
      simpa using goodIdx_setA _ _ _ hg (show 1 ≤ cnt - 1 by omega)

theorem goodIdx_syncAdd (m : List (Nat × ChunkEntry)) (id size csize : Nat)
    (h : goodIdx m) : goodIdx (syncAdd m id size csize) := by
  rcases hl : lookupA m id with _ | ⟨cnt, s, cs⟩ <;> simp only [syncAdd, hl]
  · exact goodIdx_setA _ _ _ h (le_refl 1)
  · exact goodIdx_setA _ _ _ h (Nat.le_add_left 1 cnt)

/-- The reachable in-memory cache states: from a state whose chunk index is
empty (a fresh cache, or `self.chunks.clear()` at the start of sync), closed
under `add_chunk`, `chunk_incref`, `chunk_decref`, sync's `add`, and
clearing. -/
inductive CReach : CState → Prop where
  | empty (t : Bool) (l : List RepoOp) : CReach ⟨[], t, l⟩
  | add (e : List Nat → List Nat) (c : CState) (id : Nat) (data : List Nat)
      (st : ChStats) : CReach c → CReach (Cache.add_chunk e c id data st).1
  | incref (c : CState) (id : Nat) (st : ChStats) (c' : CState) (st' : ChStats)
      (r : Nat × Nat × Nat) : CReach c →
      Cache.chunk_incref c id st = some (c', st', r) → CReach c'
  | decref (c : CState) (id : Nat) (st : ChStats) (c' : CState)
      (st' : ChStats) : CReach c →
      Cache.chunk_decref c id st = some (c', st') → CReach c'
  | syncadd (c : CState) (id s cs : Nat) : CReach c →
      CReach { c with chunks := syncAdd c.chunks id s cs }
  | clear (c : CState) : CReach c → CReach { c with chunks := [] }

/-- C3: in every reachable cache state every id present in the chunk index has
refcount at least 1 — `add_chunk`, `chunk_incref` and sync's `add` never store
refcount 0, and `chunk_decref` removes the entry rather than decrementing when
the refcount is 1 — so no entry with refcount 0 exists (in particular not in
the index written out at commit, which persists `self.chunks` unchanged). -/
theorem reachable_refcount_ge_one (c : CState) (h : CReach c) :
    goodIdx c.chunks := by
  induction h with
  | empty t l => exact goodIdx_nil
  | add e c id data st hc ih => exact goodIdx_add_chunk e c id data st ih
  | incref c id st c' st' r hc hop ih => exact goodIdx_incref _ _ _ _ _ _ hop ih
  | decref c id st c' st' hc hop ih => exact goodIdx_decref _ _ _ _ _ hop ih
  | syncadd c id s cs hc ih => exact goodIdx_syncAdd _ _ _ _ ih
  | clear c hc ih => exact goodIdx_nil

/-- Witness for `reachable_refcount_ge_one`: the state after one `add_chunk`
on a fresh cache satisfies the invariant. -/
theorem reachable_refcount_ge_one_witness :
    goodIdx (Cache.add_chunk (fun d => d) ⟨[], false, []⟩ 5 [1, 2]
      ⟨0, 0, 0⟩).1.chunks :=
  reachable_refcount_ge_one _
    (CReach.add (fun d => d) ⟨[], false, []⟩ 5 [1, 2] ⟨0, 0, 0⟩
      (CReach.empty false []))

/-- Number of `add` calls for a given id in a call sequence. -/
def numOcc (id : Nat) (l : List (Nat × Nat × Nat)) : Nat :=
  (l.filter (fun t => t.1 == id)).length

/-- A sequence of calls to sync's `add`, applied in order to an index. -/
def applyAdds : List (Nat × Nat × Nat) → List (Nat × ChunkEntry) →
    List (Nat × ChunkEntry)
  | [], m => m
  | t :: r, m => applyAdds r (syncAdd m t.1 t.2.1 t.2.2)

theorem lookupA_syncAdd_ne (m : List (Nat × ChunkEntry)) (id s cs j : Nat)
    (h : j ≠ id) : lookupA (syncAdd m id s cs) j = lookupA m j := by
  rcases hl : lookupA m id with _ | ⟨cnt, s2, cs2⟩ <;>
    simp [syncAdd, hl, lookupA_setA, h]

theorem applyAdds_present (l : List (Nat × Nat × Nat))
    (m : List (Nat × ChunkEntry)) (id cnt s cs : Nat)
    (h : lookupA m id = some (cnt, s, cs)) :
    lookupA (applyAdds l m) id = some (cnt + numOcc id l, s, cs) := by
  induction l generalizing m cnt with
  | nil => simp [applyAdds, numOcc, h]
  | cons t r ih =>
    obtain ⟨k, sz, cz⟩ := t
    by_cases hk : k = id
    · subst hk
      have h1 : syncAdd m k sz cz = setA m k (cnt + 1, s, cs) := by
        simp [syncAdd, h]
      have h2 : lookupA (setA m k (cnt + 1, s, cs)) k = some (cnt + 1, s, cs) := by
        simp [lookupA_setA]
      have h3 := ih (setA m k (cnt + 1, s, cs)) (cnt + 1) h2
      show lookupA (applyAdds r (syncAdd m k sz cz)) k = _
      rw [h1, h3]
      have hn : numOcc k ((k, sz, cz) :: r) = numOcc k r + 1 := by
        simp [numOcc]
      have ha : cnt + 1 + numOcc k r = cnt + numOcc k ((k, sz, cz) :: r) := by
        rw [hn]; omega
      rw [ha]
    · have h1 : lookupA (syncAdd m k sz cz) id = some (cnt, s, cs) := by
        rw [lookupA_syncAdd_ne _ _ _ _ _ (fun hh => hk hh.symm), h]
      have h3 := ih (syncAdd m k sz cz) cnt h1
      show lookupA (applyAdds r (syncAdd m k sz cz)) id = _
      rw [h3]
      have hn : numOcc id ((k, sz, cz) :: r) = numOcc id r := by
        simp [numOcc, hk]
      rw [hn]

theorem applyAdds_absent (l : List (Nat × Nat × Nat))
    (m : List (Nat × ChunkEntry)) (id : Nat) (h : lookupA m id = none) :
    lookupA (applyAdds l m) id =
      (List.find? (fun t => t.1 == id) l).map
        (fun t => (numOcc id l, t.2.1, t.2.2)) := by
  induction l generalizing m with
  | nil => simp [applyAdds, h]
  | cons t r ih =>
    obtain ⟨k, sz, cz⟩ := t
    by_cases hk : k = id
    · subst hk
      have h1 : syncAdd m k sz cz = setA m k (1, sz, cz) := by
        simp [syncAdd, h]
      have h2 : lookupA (setA m k (1, sz, cz)) k = some (1, sz, cz) := by
        simp [lookupA_setA]
      have h3 := applyAdds_present r (setA m k (1, sz, cz)) k 1 sz cz h2
      show lookupA (applyAdds r (syncAdd m k sz cz)) k = _
      rw [h1, h3]
      have hn : numOcc k ((k, sz, cz) :: r) = numOcc k r + 1 := by
        simp [numOcc]
      simp [List.find?, hn, Nat.add_comm]
    · have h1 : lookupA (syncAdd m k sz cz) id = none := by
        rw [lookupA_syncAdd_ne _ _ _ _ _ (fun hh => hk hh.symm), h]
      have h3 := ih (syncAdd m k sz cz) h1
      show lookupA (applyAdds r (syncAdd m k sz cz)) id = _
      rw [h3]
      have hn : numOcc id ((k, sz, cz) :: r) = numOcc id r := by
        simp [numOcc, hk]
      have hb : (k == id) = false := by simp [hk]
      simp [List.find?, hb, hn]

/-- C7: sync's `add(id, size, csize)` increments the refcount of a present id
keeping the stored size/csize (first add wins), and inserts `(1, size, csize)`
for an absent id; hence after any sequence of adds on a cleared index each id
maps to (number of adds of that id, sizes of its first add), and absent ids
stay absent. -/
theorem sync_add_characterization :
    (∀ (m : List (Nat × ChunkEntry)) (id size csize cnt s cs : Nat),
        (lookupA m id = some (cnt, s, cs) →
          lookupA (syncAdd m id size csize) id = some (cnt + 1, s, cs)) ∧
        (lookupA m id = none →
          lookupA (syncAdd m id size csize) id = some (1, size, csize))) ∧
    (∀ (l : List (Nat × Nat × Nat)) (id : Nat),
        lookupA (applyAdds l []) id =
          (List.find? (fun t => t.1 == id) l).map
            (fun t => (numOcc id l, t.2.1, t.2.2))) := by
  constructor
  · intro m id size csize cnt s cs
    constructor
    · intro h; simp [syncAdd, h, lookupA_setA]
    · intro h; simp [syncAdd, h, lookupA_setA]
  · intro l id
    exact applyAdds_absent l [] id (by simp [lookupA])

/-- Witness for `sync_add_characterization` on a concrete call sequence. -/
theorem sync_add_characterization_witness :
    lookupA (applyAdds [(7, 3, 4), (8, 5, 6), (7, 9, 9)] []) 7 =
      some (2, 3, 4) := by
  have h := sync_add_characterization.2 [(7, 3, 4), (8, 5, 6), (7, 9, 9)] 7
  simpa [numOcc, List.find?] using h

/-- A files-cache entry `[age, inode, size, mtime, chunk ids]` (cache.py line
230).  The source stores entries msgpack-packed with the mtime as a bigint;
`int_to_bigint`/`bigint_to_int` (helpers, not under src/) are a codec for
i64-as-bigint that round-trips, so the entry is modelled directly with
`mtime : Int`. -/
structure FileEntry : Type where
  age : Nat
  ino : Nat
  size : Nat
  mtime : Int
  ids : List Nat
  deriving DecidableEq, Repr

/-- The fields of `os.stat` the files cache consults (`st.st_ino`,
`st.st_size`, `st_mtime_ns(st)`). -/
structure FStat : Type where
  st_ino : Nat
  st_size : Nat
  st_mtime_ns : Int
  deriving DecidableEq, Repr

/-- The cache `config` file contents: `[cache] repository`, `manifest`,
`timestamp` (absent on a fresh cache, via `fallback=None`). -/
structure ConfigRec : Type where
  repo : Nat
  manifest : Nat
  timestamp : Option String
  deriving DecidableEq, Repr

/-- An on-disk snapshot of the three persistent cache files. -/
structure CacheSnap : Type where
  config : ConfigRec
  chunks : List (Nat × ChunkEntry)
  files : List (Nat × FileEntry)
  deriving DecidableEq, Repr

/-- The full cache state used by `commit` and the files-cache operations:
in-memory fields (`txn_active`, `do_files`, `chunks`, `files`,
`_newest_mtime`, `config`) plus the on-disk files and the two transaction
staging directories. -/
structure CacheState : Type where
  txn_active : Bool
  do_files : Bool
  chunks : List (Nat × ChunkEntry)
  files : Option (List (Nat × FileEntry))
  newestMtime : Int
  config : ConfigRec
  disk : CacheSnap
  txnTmpS : Option CacheSnap
  txnActiveS : Option CacheSnap
  deriving DecidableEq, Repr

/-- `Cache.commit` (cache.py lines 101-122): no-op unless a transaction is
active; otherwise rewrite `files` (keeping entries with `age < 10` and
`mtime < self._newest_mtime`), set and write `config` (new manifest id and
timestamp), write `chunks`, rename `txn.active` to `txn.tmp` and remove it. -/
def Cache.commit (mId : Nat) (mTs : String) (c : CacheState) : CacheState :=
  if c.txn_active = false then c
  else
    let dFiles := match c.files with
      | none => c.disk.files
      | some fs =>
        fs.filter (fun pe =>
          decide (pe.2.age < 10) && decide (pe.2.mtime < c.newestMtime))
    let cfg := { c.config with manifest := mId, timestamp := some mTs }
    { c with
        config := cfg
        disk := { config := cfg, chunks := c.chunks, files := dFiles }
        txnTmpS := none
        txnActiveS := none
        txn_active := false }

/-- `Cache._read_files` (cache.py lines 75-88): load the persisted entries,
incrementing each entry's age by 1. -/
def readFilesMap (l : List (Nat × FileEntry)) : List (Nat × FileEntry) :=
  l.map (fun pe => (pe.1, { pe.2 with age := pe.2.age + 1 }))

/-- The body of `Cache.file_known_and_unchanged` after the files cache is
loaded as map `m` (cache.py lines 215-225): look up `path_hash`; on a full
match of size, mtime and inode, reset the entry's age to 0 and return its
chunk-id list, else return None and change nothing. -/
def fkuOnMap (c : CacheState) (m : List (Nat × FileEntry)) (ph : Nat)
    (st : FStat) : Option (List Nat) × CacheState :=
  match lookupA m ph with
  | none => (none, c)
  | some e =>
    if e.size = st.st_size ∧ e.mtime = st.st_mtime_ns ∧ e.ino = st.st_ino then
      (some e.ids,
       { c with files := some (setA m ph { e with age := 0 }) })
    else (none, c)

/-- `Cache.file_known_and_unchanged` (cache.py lines 210-225): `None` when
`do_files` is off; loads the files cache on first use (`_read_files`, which
also resets `_newest_mtime` to 0); then behaves as `fkuOnMap`. -/
def Cache.file_known_and_unchanged (c : CacheState) (ph : Nat) (st : FStat) :
    Option (List Nat) × CacheState :=
  if c.do_files = false then (none, c)
  else
    match c.files with
    | some m => fkuOnMap c m ph st
    | none =>
      let m := readFilesMap c.disk.files
      fkuOnMap { c with files := some m, newestMtime := 0 } m ph st

/-- C10: `Cache.commit` with no active transaction returns immediately and
changes nothing (on-disk `files`, `config`, `chunks`, the in-memory chunk
index, files map and config are all left as they were); consequently a second
commit right after any commit is a no-op. -/
theorem commit_inactive_noop (mId : Nat) (mTs : String) (c c2 : CacheState)
    (h : c.txn_active = false) :
    Cache.commit mId mTs c = c ∧
    Cache.commit mId mTs (Cache.commit mId mTs c2) = Cache.commit mId mTs c2 := by
  have h1 : ∀ d : CacheState, d.txn_active = false → Cache.commit mId mTs d = d := by
    intro d hd
    simp [Cache.commit, hd]
  refine ⟨h1 c h, ?_⟩
  by_cases h2 : c2.txn_active = false
  · rw [h1 c2 h2, h1 c2 h2]
  · apply h1
    simp [Cache.commit, h2]

/-- Witness for `commit_inactive_noop` at a concrete state. -/
theorem commit_inactive_noop_witness :
    Cache.commit 3 "t" ⟨false, false, [], none, 0, ⟨0, 0, none⟩,
      ⟨⟨0, 0, none⟩, [], []⟩, none, none⟩ =
    ⟨false, false, [], none, 0, ⟨0, 0, none⟩,
      ⟨⟨0, 0, none⟩, [], []⟩, none, none⟩ :=
  (commit_inactive_noop 3 "t" _ ⟨false, false, [], none, 0, ⟨0, 0, none⟩,
      ⟨⟨0, 0, none⟩, [], []⟩, none, none⟩ rfl).1

/-- C4: during `Cache.commit` with the files cache loaded, an entry is written
back to the `files` file iff its age is strictly below 10 and its mtime is
strictly below the newest mtime observed during the run; hence after commit no
persisted entry has age at least 10 and none has mtime equal to the newest
observed mtime. -/
theorem commit_files_filter (mId : Nat) (mTs : String) (c : CacheState)
    (fs : List (Nat × FileEntry))
    (hA : c.txn_active = true) (hF : c.files = some fs) :
    ((Cache.commit mId mTs c).disk.files =
      fs.filter (fun pe =>
        decide (pe.2.age < 10) && decide (pe.2.mtime < c.newestMtime))) ∧
    (∀ pe : Nat × FileEntry,
      pe ∈ (Cache.commit mId mTs c).disk.files ↔
        pe ∈ fs ∧ pe.2.age < 10 ∧ pe.2.mtime < c.newestMtime) ∧
    (∀ pe : Nat × FileEntry, pe ∈ (Cache.commit mId mTs c).disk.files →
      ¬10 ≤ pe.2.age ∧ pe.2.mtime ≠ c.newestMtime) := by
  have he : (Cache.commit mId mTs c).disk.files =
      fs.filter (fun pe =>
        decide (pe.2.age < 10) && decide (pe.2.mtime < c.newestMtime)) := by
    simp [Cache.commit, hA, hF]
  refine ⟨he, ?_, ?_⟩
  · intro pe
    rw [he, List.mem_filter]
    simp [and_assoc]
  · intro pe hpe
    rw [he, List.mem_filter] at hpe
    have h1 : pe.2.age < 10 ∧ pe.2.mtime < c.newestMtime := by
      simpa using hpe.2
    exact ⟨by omega, ne_of_lt h1.2⟩

/-- Witness for `commit_files_filter` at a concrete state (one surviving
entry, one aged out, one with the newest mtime). -/
theorem commit_files_filter_witness :
    (Cache.commit 3 "t" ⟨true, true, [],
        some [(1, ⟨2, 0, 0, 5, []⟩), (2, ⟨10, 0, 0, 5, []⟩),
              (3, ⟨0, 0, 0, 9, []⟩)],
        9, ⟨0, 0, none⟩, ⟨⟨0, 0, none⟩, [], []⟩, none, none⟩).disk.files =
      [(1, ⟨2, 0, 0, 5, []⟩)] := by
  have h := commit_files_filter 3 "t" ⟨true, true, [],
    some [(1, ⟨2, 0, 0, 5, []⟩), (2, ⟨10, 0, 0, 5, []⟩), (3, ⟨0, 0, 0, 9, []⟩)],
    9, ⟨0, 0, none⟩, ⟨⟨0, 0, none⟩, [], []⟩, none, none⟩
    [(1, ⟨2, 0, 0, 5, []⟩), (2, ⟨10, 0, 0, 5, []⟩), (3, ⟨0, 0, 0, 9, []⟩)]
    rfl rfl
  rw [h.1]
  rfl

/-- C5: with `do_files` enabled and the files cache loaded as `m`,
`file_known_and_unchanged(path_hash, st)` returns the recorded chunk-id list
iff an entry exists for `path_hash` whose recorded size, mtime and inode all
equal those of `st`, resetting that entry's age to 0 and changing nothing
else; in every other case it returns `None` and the state is unchanged. -/
theorem file_lookup_spec (c : CacheState) (m : List (Nat × FileEntry))
    (ph : Nat) (st : FStat) (hd : c.do_files = true) (hm : c.files = some m) :
    (lookupA m ph = none →
      Cache.file_known_and_unchanged c ph st = (none, c)) ∧
    (∀ e : FileEntry, lookupA m ph = some e →
      ((e.size = st.st_size ∧ e.mtime = st.st_mtime_ns ∧ e.ino = st.st_ino) →
        Cache.file_known_and_unchanged c ph st =
          (some e.ids,
           { c with files := some (setA m ph { e with age := 0 }) })) ∧
      (¬(e.size = st.st_size ∧ e.mtime = st.st_mtime_ns ∧ e.ino = st.st_ino) →
        Cache.file_known_and_unchanged c ph st = (none, c))) := by
  constructor
  · intro h
    simp [Cache.file_known_and_unchanged, hd, hm, fkuOnMap, h]
  · intro e he
    constructor
    · intro hmatch
      simp [Cache.file_known_and_unchanged, hd, hm, fkuOnMap, he, hmatch]
    · intro hmatch
      simp [Cache.file_known_and_unchanged, hd, hm, fkuOnMap, he, hmatch]

/-- Witness for `file_lookup_spec`: a concrete matching lookup returns the
recorded ids and resets the age. -/
theorem file_lookup_spec_witness :
    Cache.file_known_and_unchanged
      ⟨false, true, [], some [(4, ⟨7, 11, 22, 33, [9, 9]⟩)], 0,
       ⟨0, 0, none⟩, ⟨⟨0, 0, none⟩, [], []⟩, none, none⟩ 4 ⟨11, 22, 33⟩ =
    (some [9, 9],
     ⟨false, true, [], some [(4, ⟨0, 11, 22, 33, [9, 9]⟩)], 0,
      ⟨0, 0, none⟩, ⟨⟨0, 0, none⟩, [], []⟩, none, none⟩) := by
  have h := (file_lookup_spec
    ⟨false, true, [], some [(4, ⟨7, 11, 22, 33, [9, 9]⟩)], 0,
     ⟨0, 0, none⟩, ⟨⟨0, 0, none⟩, [], []⟩, none, none⟩
    [(4, ⟨7, 11, 22, 33, [9, 9]⟩)] 4 ⟨11, 22, 33⟩ rfl rfl).2
    ⟨7, 11, 22, 33, [9, 9]⟩ (by simp [lookupA])
  rw [(h.1 (by exact ⟨rfl, rfl, rfl⟩))]
  rfl

/-- Python string comparison `a < b` on code-point sequences: lexicographic,
with a proper prefix ordered first.  Timestamps (ISO-8601 strings) are
modelled as their lists of code points. -/
def pyStrLt : List Nat → List Nat → Bool
  | [], [] => false
  | [], _ :: _ => true
  | _ :: _, [] => false
  | a :: as2, b :: bs =>
    if a < b then true else if b < a then false else pyStrLt as2 bs

/-- The outcome of the sync decision in `Cache.__init__` (cache.py lines
30-35): `replay` models `raise self.RepositoryReplay()` (before `self.sync()`
runs, so no sync work touches the cache), `synced` models
`self.sync(); self.commit()`, and `opened` means no sync was needed. -/
inductive InitOutcome : Type where
  | replay : InitOutcome
  | synced : InitOutcome
  | opened : InitOutcome
  deriving DecidableEq, Repr

/-- The decision logic of `Cache.__init__` (cache.py lines 30-35):
`if sync and self.manifest.id != self.manifest_id:` then
`if self.timestamp and self.timestamp > manifest.timestamp: raise
RepositoryReplay()` else sync and commit.  `self.timestamp` is `None` on a
cache that never committed (`fallback=None`), and Python truthiness makes an
empty string falsy. -/
def initSyncDecision (sync : Bool) (manifestId cacheManifestId : Nat)
    (cacheTs : Option (List Nat)) (manifestTs : List Nat) : InitOutcome :=
  if sync && !(manifestId == cacheManifestId) then
    if (match cacheTs with
        | none => false
        | some t => !t.isEmpty && pyStrLt manifestTs t) then
      InitOutcome.replay
    else InitOutcome.synced
  else InitOutcome.opened

/-- C6: when the cache is opened with sync enabled, the loaded manifest id
differs from the recorded one, and the recorded timestamp is strictly greater
than the manifest timestamp, the constructor fails with `RepositoryReplay`
(and in particular never reaches `self.sync()`). -/
theorem replay_guard (manifestId cacheManifestId : Nat)
    (t manifestTs : List Nat)
    (hid : manifestId ≠ cacheManifestId)
    (hts : pyStrLt manifestTs t = true) :
    initSyncDecision true manifestId cacheManifestId (some t) manifestTs =
      InitOutcome.replay := by
  have hne : t.isEmpty = false := by
    cases t
    · cases manifestTs <;> simp [pyStrLt] at hts
    · simp [List.isEmpty]
  simp [initSyncDecision, hid, hts, hne]

/-- Witness for `replay_guard`: cache timestamp "2024-01-02…" (code points),
manifest timestamp "2024-01-01…", different manifest ids. -/
theorem replay_guard_witness :
    initSyncDecision true 1 2
      (some [50, 48, 50, 52, 45, 48, 49, 45, 48, 50])
      [50, 48, 50, 52, 45, 48, 49, 45, 48, 49] = InitOutcome.replay :=
  replay_guard 1 2 [50, 48, 50, 52, 45, 48, 49, 45, 48, 50]
    [50, 48, 50, 52, 45, 48, 49, 45, 48, 49] (by decide) (by decide)

/-- Serialization of one item for the ItemCache scratch file.  msgpack (an
external library) is modelled as a self-delimiting length-prefixed code over
the item's payload bytes, which captures exactly what fuse.py relies on:
`packb` is self-delimiting, and an `Unpacker` started at a record's start
offset decodes that record regardless of what follows. -/
def packItem (it : List Nat) : List Nat := it.length :: it

/-- Concatenated serializations, as appended to the scratch file. -/
def packAll : List (List Nat) → List Nat
  | [] => []
  | it :: r => packItem it ++ packAll r

/-- `ItemCache` (fuse.py lines 18-21): the scratch temp file contents
(`self.fd`); `self.offset` is the constant 1000000. -/
structure ItemCache : Type where
  fd : List Nat
  deriving DecidableEq, Repr

/-- `ItemCache.add` (fuse.py lines 23-26): `pos = self.fd.seek(0, SEEK_END)`,
append `msgpack.packb(item)`, return `pos + self.offset`. -/
def ItemCache.add (c : ItemCache) (item : List Nat) : ItemCache × Nat :=
  (⟨c.fd ++ packItem item⟩, c.fd.length + 1000000)

/-- Decoding one packed item starting at a byte position of the scratch file
(`next(msgpack.Unpacker(self.fd))` after `seek`). -/
def unpackAt (fd : List Nat) (pos : Nat) : Option (List Nat) :=
  match fd.drop pos with
  | [] => none
  | n :: rest => some (rest.take n)

/-- `ItemCache.get` (fuse.py lines 28-30): seek to `inode - self.offset`,
decode the next item. -/
def ItemCache.get (c : ItemCache) (inode : Nat) : Option (List Nat) :=
  unpackAt c.fd (inode - 1000000)

/-- A run of `add` calls in order; returns the final cache and the returned
handles. -/
def runAdds : ItemCache → List (List Nat) → ItemCache × List Nat
  | c, [] => (c, [])
  | c, it :: r =>
    let p := ItemCache.add c it
    let q := runAdds p.1 r
    (q.1, p.2 :: q.2)

/-- The handles returned by a run of adds starting at file length `base`. -/
def handlesFrom (base : Nat) : List (List Nat) → List Nat
  | [] => []
  | it :: r => (base + 1000000) :: handlesFrom (base + (it.length + 1)) r

theorem runAdds_spec (items : List (List Nat)) (c : ItemCache) :
    runAdds c items = (⟨c.fd ++ packAll items⟩, handlesFrom c.fd.length items) := by
  induction items generalizing c with
  | nil => simp [runAdds, packAll, handlesFrom]
  | cons it r ih =>
    have h1 : (c.fd ++ packItem it).length = c.fd.length + (it.length + 1) := by
      simp [packItem]
    simp only [runAdds, ItemCache.add, ih, packAll, handlesFrom, h1,
      List.append_assoc]

theorem handlesFrom_length (items : List (List Nat)) (base : Nat) :
    (handlesFrom base items).length = items.length := by
  induction items generalizing base with
  | nil => simp [handlesFrom]
  | cons it r ih => simp [handlesFrom, ih]

theorem handlesFrom_mem_ge (items : List (List Nat)) (base h : Nat)
    (hm : h ∈ handlesFrom base items) : base + 1000000 ≤ h := by
  induction items generalizing base with
  | nil => simp [handlesFrom] at hm
  | cons it r ih =>
    simp only [handlesFrom, List.mem_cons] at hm
    rcases hm with rfl | hm
    · exact le_refl _
    · have := ih (base + (it.length + 1)) hm
      omega

theorem handlesFrom_chain (items : List (List Nat)) (base : Nat) :
    List.Chain' (fun a b => a < b) (handlesFrom base items) := by
  induction items generalizing base with
  | nil => simp [handlesFrom]
  | cons it r ih =>
    rw [handlesFrom, List.chain'_cons']
    refine ⟨?_, ih _⟩
    intro b hb
    rcases r with _ | ⟨it2, r2⟩
    · simp [handlesFrom] at hb
    · simp only [handlesFrom, List.head?_cons, Option.mem_def,
        Option.some.injEq] at hb
      omega

theorem handlesFrom_get (items : List (List Nat)) (base i : Nat)
    (hi : i < items.length) :
    (handlesFrom base items)[i]? =
      some (base + (packAll (items.take i)).length + 1000000) := by
  induction items generalizing base i with
  | nil => simp at hi
  | cons it r ih =>
    rcases i with _ | i
    · simp [handlesFrom, packAll]
    · have hi2 : i < r.length := by simpa using hi
      rw [handlesFrom]
      rw [List.getElem?_cons_succ, ih _ _ hi2]
      have h1 : (packAll ((it :: r).take (i + 1))).length =
          it.length + 1 + (packAll (r.take i)).length := by
        simp only [List.take_succ_cons, packAll, packItem, List.length_append,
          List.length_cons]
      rw [h1]
      have h2 : base + (it.length + 1) + (packAll (List.take i r)).length =
          base + (it.length + 1 + (packAll (List.take i r)).length) := by omega
      rw [h2]

theorem unpackAt_packAll (items : List (List Nat)) (fd0 : List Nat) (i : Nat)
    (hi : i < items.length) :
    unpackAt (fd0 ++ packAll items) (fd0.length + (packAll (items.take i)).length) =
      items[i]? := by
  induction items generalizing fd0 i with
  | nil => simp at hi
  | cons it r ih =>
    rcases i with _ | i
    · simp [packAll, packItem, unpackAt, List.drop_left, List.take_left]
    · have hi2 : i < r.length := by simpa using hi
      have h1 : packAll ((it :: r).take (i + 1)) =
          packItem it ++ packAll (r.take i) := by
        simp [List.take, packAll]
      have h2 : fd0 ++ packAll (it :: r) =
          (fd0 ++ packItem it) ++ packAll r := by
        simp [packAll]
      have h3 : fd0.length + (packAll ((it :: r).take (i + 1))).length =
          (fd0 ++ packItem it).length + (packAll (r.take i)).length := by
        rw [h1]; simp; omega
      rw [h2, h3, ih _ _ hi2]
      simp

/-- C9: every `ItemCache.add` returns the scratch-file offset of the appended
record plus the base offset 1000000 (so handles are at least 1000000 — they
never collide with the small monotonically allocated directory inodes — and
strictly increase across calls), and `get` of a returned handle yields the
item passed to that `add`, even after later adds. -/
theorem item_cache_roundtrip (items : List (List Nat)) :
    ((runAdds ⟨[]⟩ items).2).length = items.length ∧
    (∀ i, i < items.length →
      ((runAdds ⟨[]⟩ items).2)[i]? =
        some ((packAll (items.take i)).length + 1000000)) ∧
    List.Chain' (fun a b => a < b) ((runAdds ⟨[]⟩ items).2) ∧
    (∀ h ∈ (runAdds ⟨[]⟩ items).2, 1000000 ≤ h) ∧
    (∀ (i h : Nat), ((runAdds ⟨[]⟩ items).2)[i]? = some h →
      ItemCache.get (runAdds ⟨[]⟩ items).1 h = items[i]?) := by
  rw [runAdds_spec]
  simp only [List.length_nil, List.nil_append]
  refine ⟨handlesFrom_length items 0, ?_, handlesFrom_chain items 0, ?_, ?_⟩
  · intro i hi
    rw [handlesFrom_get items 0 i hi]
    simp
  · intro h hm
    have := handlesFrom_mem_ge items 0 h hm
    omega
  · intro i h hh
    by_cases hi : i < items.length
    · rw [handlesFrom_get items 0 i hi] at hh
      have hh2 : h = (packAll (items.take i)).length + 1000000 := by
        simpa using hh.symm
      subst hh2
      simp only [ItemCache.get, Nat.add_sub_cancel]
      simpa using unpackAt_packAll items [] i hi
    · have hlen : (handlesFrom 0 items).length ≤ i := by
        rw [handlesFrom_length]; omega
      have hnone : (handlesFrom 0 items)[i]? = none :=
        List.getElem?_eq_none hlen
      rw [hnone] at hh
      cases hh

/-- Witness for `item_cache_roundtrip`: after adding `[5]` then `[6, 7]`, the
second handle is 1000002 and `get` returns `[6, 7]`. -/
theorem item_cache_roundtrip_witness :
    ItemCache.get (runAdds ⟨[]⟩ [[5], [6, 7]]).1 1000002 = some [6, 7] := by
  have h := (item_cache_roundtrip [[5], [6, 7]]).2.2.2.2 1 1000002 (by rfl)
  simpa using h

/-- `AtticOperations.read` (fuse.py lines 274-288), with
`plain id = self.key.decrypt(id, self.repository.get(id))` as an oracle.
Walks `item[b'chunks']`; a chunk of recorded size `s` is skipped when
`s < offset`; otherwise `n = min(size, s - offset)` bytes of its plaintext
slice `[offset, offset+n)` are appended, and the loop breaks when the running
`size` reaches 0.  Returns the concatenated bytes together with the list of
chunk ids that were decrypted, in order. -/
def fuseRead (plain : Nat → List Nat) :
    List (Nat × Nat × Nat) → Nat → Nat → List Nat × List Nat
  | [], _, _ => ([], [])
  | (id, s, _) :: rest, offset, size =>
    if s < offset then fuseRead plain rest (offset - s) size
    else
      let n := min size (s - offset)
      let part := ((plain id).drop offset).take n
      if size - n = 0 then (part, [id])
      else
        let q := fuseRead plain rest 0 (size - n)
        (part ++ q.1, id :: q.2)

/-- Concatenated plaintext of an item's chunks. -/
def catPlain (plain : Nat → List Nat) : List (Nat × Nat × Nat) → List Nat
  | [] => []
  | t :: r => plain t.1 ++ catPlain plain r

/-- Byte offset at which chunk `i` of an item starts (the sum of the recorded
sizes of the preceding chunks). -/
def chunkStart (chunks : List (Nat × Nat × Nat)) (i : Nat) : Nat :=
  ((chunks.take i).map (fun t => t.2.1)).sum

/-- Chunk `i` overlaps the requested byte range `[offset, offset + size)`. -/
def chunkOverlaps (chunks : List (Nat × Nat × Nat)) (i offset size : Nat) :
    Prop :=
  chunkStart chunks i < offset + size ∧ offset < chunkStart chunks (i + 1)

/-- C8 counterexample: with two chunks of size 1 and `read(offset=1, size=1)`,
the first chunk has size `1 ≤ offset` and covers `[0, 1)`, which does not
overlap `[1, 2)` — yet its id is decrypted (the code only skips chunks with
`s < offset`, strictly), so the claim "skips the chunks whose size ≤ offset,
decrypting only the chunks overlapping the range" is false. -/
theorem read_decrypts_nonoverlapping_chunk :
    (fuseRead (fun _ => [7]) [(0, 1, 1), (1, 1, 1)] 1 1).2 = [0, 1] ∧
    (0 : Nat) ∈ (fuseRead (fun _ => [7]) [(0, 1, 1), (1, 1, 1)] 1 1).2 ∧
    ¬chunkOverlaps [(0, 1, 1), (1, 1, 1)] 0 1 1 := by
  refine ⟨rfl, ?_, ?_⟩
  · decide
  · intro h
    have h2 := h.2
    simp [chunkStart] at h2

theorem fuseRead_bytes (plain : Nat → List Nat) (chunks : List (Nat × Nat × Nat))
    (offset size : Nat)
    (h : ∀ t ∈ chunks, (plain t.1).length = t.2.1) :
    (fuseRead plain chunks offset size).1 =
      ((catPlain plain chunks).drop offset).take size := by
  induction chunks generalizing offset size with
  | nil => simp [fuseRead, catPlain]
  | cons t rest ih =>
    obtain ⟨id, s, cz⟩ := t
    have hlen : (plain id).length = s := h (id, s, cz) (List.mem_cons_self _ _)
    have hrest : ∀ t ∈ rest, (plain t.1).length = t.2.1 :=
      fun t ht => h t (List.mem_cons_of_mem _ ht)
    have hdrop : (catPlain plain ((id, s, cz) :: rest)).drop offset =
        (plain id).drop offset ++ (catPlain plain rest).drop (offset - s) := by
      rw [catPlain, List.drop_append_eq_append_drop, hlen]
    by_cases hskip : s < offset
    · have h0 : (plain id).drop offset = [] :=
        List.drop_eq_nil_of_le (by omega)
      rw [hdrop, h0, List.nil_append]
      simp only [fuseRead, if_pos hskip]
      exact ih (offset - s) size hrest
    · have hos : offset - s = 0 := by omega
      have hdlen : ((plain id).drop offset).length = s - offset := by
        rw [List.length_drop, hlen]
      by_cases hb : size ≤ s - offset
      · have hn : min size (s - offset) = size := min_eq_left hb
        have hsub : size - min size (s - offset) = 0 := by omega
        simp only [fuseRead, if_neg hskip, hsub, if_pos rfl, hn]
        rw [hdrop, hos, List.drop_zero, List.take_append_eq_append_take]
        have h1 : size - ((plain id).drop offset).length = 0 := by
          rw [hdlen]; omega
        rw [h1, List.take_zero, List.append_nil]
        simp
      · have hn : min size (s - offset) = s - offset :=
          min_eq_right (by omega)
        have hsub : ¬(size - (s - offset) = 0) := by omega
        simp only [fuseRead, if_neg hskip, hn, if_neg hsub]
        rw [hdrop, hos, List.drop_zero, List.take_append_eq_append_take]
        have h1 : ((plain id).drop offset).take (s - offset) =
            (plain id).drop offset := List.take_of_length_le (by rw [hdlen])
        have h3 : ((plain id).drop offset).take size = (plain id).drop offset :=
          List.take_of_length_le (by rw [hdlen]; omega)
        have h2 : size - ((plain id).drop offset).length = size - (s - offset) := by
          rw [hdlen]
        rw [h1, h3, h2, ih 0 (size - (s - offset)) hrest, List.drop_zero]

theorem fuseRead_decrypted_sub (plain : Nat → List Nat)
    (chunks : List (Nat × Nat × Nat)) (offset size : Nat) :
    ∀ id ∈ (fuseRead plain chunks offset size).2,
      id ∈ chunks.map (fun t => t.1) := by
  induction chunks generalizing offset size with
  | nil => simp [fuseRead]
  | cons t rest ih =>
    obtain ⟨cid, s, cz⟩ := t
    intro id hid
    by_cases hskip : s < offset
    · simp only [fuseRead, if_pos hskip] at hid
      have h2 := ih (offset - s) size id hid
      simp only [List.map_cons, List.mem_cons]
      exact Or.inr (by simpa using h2)
    · simp only [fuseRead, if_neg hskip] at hid
      by_cases hb : size - min size (s - offset) = 0
      · rw [if_pos hb] at hid
        simp only [List.mem_singleton] at hid
        simp [hid]
      · rw [if_neg hb] at hid
        simp only [List.mem_cons] at hid
        rcases hid with rfl | hid
        · simp
        · have h2 := ih 0 (size - min size (s - offset)) id hid
          simp only [List.map_cons, List.mem_cons]
          exact Or.inr (by simpa using h2)

/-- C8 (amended): for every item whose chunk plaintexts each have length equal
to the recorded chunk size, `read(fh, offset, size)` walks the item's chunks
in order, skips a chunk only when its recorded size is strictly less than the
remaining offset, and returns exactly the bytes `[offset, offset+size)` of the
concatenated plaintext, truncated at the end of the file; every decrypted id
is one of the item's chunk ids (a chunk ending exactly at `offset` may be
decrypted even though it contributes no bytes). -/
theorem read_bytes_correct (plain : Nat → List Nat)
    (chunks : List (Nat × Nat × Nat)) (offset size : Nat)
    (h : ∀ t ∈ chunks, (plain t.1).length = t.2.1) :
    (fuseRead plain chunks offset size).1 =
      ((catPlain plain chunks).drop offset).take size ∧
    ∀ id ∈ (fuseRead plain chunks offset size).2,
      id ∈ chunks.map (fun t => t.1) :=
  ⟨fuseRead_bytes plain chunks offset size h,
   fuseRead_decrypted_sub plain chunks offset size⟩

/-- Witness for `read_bytes_correct`: two 2-byte chunks, `read(offset=1,
size=2)` returns the middle two bytes. -/
theorem read_bytes_correct_witness :
    (fuseRead (fun i => [i, i]) [(3, 2, 9), (4, 2, 9)] 1 2).1 = [3, 4] := by
  have h := (read_bytes_correct (fun i => [i, i]) [(3, 2, 9), (4, 2, 9)] 1 2
    (by decide)).1
  simpa [catPlain] using h

namespace Txn

/-- Contents of a `txn.tmp` / `txn.active` staging directory: each of the
three copied files may be present or not yet written. -/
structure Snap (V : Type) : Type where
  config : Option V
  chunks : Option V
  files : Option V
  deriving DecidableEq, Repr

/-- The on-disk state of the cache directory: the three persistent files
(contents of abstract type `V`) and the two staging directories, each absent
or present with partial contents. -/
structure Disk (V : Type) : Type where
  config : V
  chunks : V
  files : V
  txnTmp : Option (Snap V)
  txnActive : Option (Snap V)
  deriving DecidableEq, Repr

variable {V : Type}

/-- `os.mkdir(txn_dir)` (cache.py line 93): an empty `txn.tmp` appears. -/
def mkdirTmp (d : Disk V) : Disk V :=
  { d with txnTmp := some ⟨none, none, none⟩ }

/-- `shutil.copy(config, txn.tmp)` (cache.py line 94); `v` is the file
contents left in `txn.tmp` (the real copy of `config`, or partial contents if
the process dies mid-copy). -/
def tmpWithConfig (d : Disk V) (v : V) : Disk V :=
  { d with txnTmp := d.txnTmp.map (fun t => { t with config := some v }) }

/-- `shutil.copy(chunks, txn.tmp)` (cache.py line 95). -/
def tmpWithChunks (d : Disk V) (v : V) : Disk V :=
  { d with txnTmp := d.txnTmp.map (fun t => { t with chunks := some v }) }

/-- `shutil.copy(files, txn.tmp)` (cache.py line 96). -/
def tmpWithFiles (d : Disk V) (v : V) : Disk V :=
  { d with txnTmp := d.txnTmp.map (fun t => { t with files := some v }) }

/-- `os.rename(txn.tmp, txn.active)` (cache.py lines 97-98, atomic). -/
def renameTmpToActive (d : Disk V) : Disk V :=
  { d with txnActive := d.txnTmp, txnTmp := none }

/-- `Cache.begin_txn` (cache.py lines 90-99) run to completion. -/
def beginTxn (d : Disk V) : Disk V :=
  renameTmpToActive
    (tmpWithFiles
      (tmpWithChunks (tmpWithConfig (mkdirTmp d) d.config) d.chunks) d.files)

/-- Rewriting the `files` file during commit (cache.py lines 106-113); `v` is
its contents (the filtered entries once the write completes, or partial
contents if the process dies mid-write). -/
def writeFiles (d : Disk V) (v : V) : Disk V := { d with files := v }

/-- Rewriting the `config` file during commit (cache.py lines 114-117). -/
def writeConfig (d : Disk V) (v : V) : Disk V := { d with config := v }

/-- Rewriting the `chunks` file during commit (cache.py line 118). -/
def writeChunks (d : Disk V) (v : V) : Disk V := { d with chunks := v }

/-- `os.rename(txn.active, txn.tmp)` (cache.py lines 119-120, atomic): the
commit point. -/
def renameActiveToTmp (d : Disk V) : Disk V :=
  { d with txnTmp := d.txnActive, txnActive := none }

/-- `shutil.rmtree(txn.tmp)` (cache.py line 121). -/
def removeTmp (d : Disk V) : Disk V := { d with txnTmp := none }

/-- `Cache.rollback` (cache.py lines 124-139): remove `txn.tmp` if present; if
`txn.active` exists, copy `config`, `chunks` and `files` back from it (`none`
models the I/O error on a missing file, unreachable because `begin_txn`
renames only after all three copies), rename `txn.active` to `txn.tmp`, and
remove that. -/
def rollback (d : Disk V) : Option (Disk V) :=
  let d1 : Disk V := { d with txnTmp := none }
  match d1.txnActive with
  | none => some d1
  | some t =>
    match t.config, t.chunks, t.files with
    | some cf, some ck, some ff =>
      some { config := cf, chunks := ck, files := ff,
             txnTmp := none, txnActive := none }
    | _, _, _ => none

/-- Every on-disk state at which the process can die during `begin_txn`
followed by `commit`, strictly before the commit point (the rename of
`txn.active` to `txn.tmp`): `jc/jk/jf` are the partial contents of
interrupted copies into `txn.tmp`, `jf2/jc2/jk2` the partial contents of
interrupted rewrites of the three main files, and `nf/nc/nk` the completed
new contents written by commit. -/
def preRenameCrashStates (d : Disk V) (nf nc nk jc jk jf jf2 jc2 jk2 : V) :
    List (Disk V) :=
  [d,
   mkdirTmp d,
   tmpWithConfig (mkdirTmp d) jc,
   tmpWithConfig (mkdirTmp d) d.config,
   tmpWithChunks (tmpWithConfig (mkdirTmp d) d.config) jk,
   tmpWithChunks (tmpWithConfig (mkdirTmp d) d.config) d.chunks,
   tmpWithFiles (tmpWithChunks (tmpWithConfig (mkdirTmp d) d.config) d.chunks)
     jf,
   tmpWithFiles (tmpWithChunks (tmpWithConfig (mkdirTmp d) d.config) d.chunks)
     d.files,
   beginTxn d,
   writeFiles (beginTxn d) jf2,
   writeFiles (beginTxn d) nf,
   writeConfig (writeFiles (beginTxn d) nf) jc2,
   writeConfig (writeFiles (beginTxn d) nf) nc,
   writeChunks (writeConfig (writeFiles (beginTxn d) nf) nc) jk2,
   writeChunks (writeConfig (writeFiles (beginTxn d) nf) nc) nk]

/-- The on-disk states at which the process can die at or after the commit
point; `js` is the partial contents of `txn.tmp` while its removal is in
progress. -/
def postRenameCrashStates (d : Disk V) (nf nc nk : V) (js : Snap V) :
    List (Disk V) :=
  [renameActiveToTmp (writeChunks (writeConfig (writeFiles (beginTxn d) nf) nc)
     nk),
   { renameActiveToTmp (writeChunks (writeConfig (writeFiles (beginTxn d) nf)
       nc) nk) with txnTmp := some js },
   removeTmp (renameActiveToTmp (writeChunks (writeConfig (writeFiles
     (beginTxn d) nf) nc) nk))]

end Txn

/-- C1: for a cache directory with no staging directory, if the process dies
at any point during `begin_txn` or the following `commit`, `rollback` (run on
reopen) succeeds and leaves `config`, `chunks` and `files` equal to the
pre-transaction snapshot at every crash point strictly before commit's rename
of `txn.active` to `txn.tmp`, and equal to the post-transaction snapshot
`(nc, nk, nf)` at every crash point at or after that rename — never a mixture
— and afterwards neither `txn.tmp` nor `txn.active` exists. -/
theorem txn_crash_atomicity {V : Type} (d : Txn.Disk V)
    (hT : d.txnTmp = none) (hA : d.txnActive = none)
    (nf nc nk jc jk jf jf2 jc2 jk2 : V) (js : Txn.Snap V) :
    (∀ s ∈ Txn.preRenameCrashStates d nf nc nk jc jk jf jf2 jc2 jk2,
      Txn.rollback s = some ⟨d.config, d.chunks, d.files, none, none⟩) ∧
    (∀ s ∈ Txn.postRenameCrashStates d nf nc nk js,
      Txn.rollback s = some ⟨nc, nk, nf, none, none⟩) := by
  constructor
  · intro s hs
    simp only [Txn.preRenameCrashStates, List.mem_cons, List.not_mem_nil,
      or_false] at hs
    rcases hs with rfl|rfl|rfl|rfl|rfl|rfl|rfl|rfl|rfl|rfl|rfl|rfl|rfl|rfl|rfl <;>
      simp [Txn.rollback, Txn.mkdirTmp, Txn.tmpWithConfig, Txn.tmpWithChunks,
        Txn.tmpWithFiles, Txn.renameTmpToActive, Txn.beginTxn, Txn.writeFiles,
        Txn.writeConfig, Txn.writeChunks, hA, hT]
  · intro s hs
    simp only [Txn.postRenameCrashStates, List.mem_cons, List.not_mem_nil,
      or_false] at hs
    rcases hs with rfl|rfl|rfl <;>
      simp [Txn.rollback, Txn.mkdirTmp, Txn.tmpWithConfig, Txn.tmpWithChunks,
        Txn.tmpWithFiles, Txn.renameTmpToActive, Txn.beginTxn, Txn.writeFiles,
        Txn.writeConfig, Txn.writeChunks, Txn.renameActiveToTmp, Txn.removeTmp]

/-- Witness for `txn_crash_atomicity`: dying right after commit rewrote the
`files` file still rolls back to the pre-transaction snapshot. -/
theorem txn_crash_atomicity_witness :
    Txn.rollback (Txn.writeFiles (Txn.beginTxn
        (⟨1, 2, 3, none, none⟩ : Txn.Disk Nat)) 9) =
      some ⟨1, 2, 3, none, none⟩ :=
  (txn_crash_atomicity ⟨1, 2, 3, none, none⟩ rfl rfl 9 8 7 0 0 0 0 0 0
    ⟨none, none, none⟩).1 _ (by decide)
